import Mathlib

/-!
Verification development for the `architecture-practice-5` repository:
a Bitcask-style append-only key-value store (`datastore/db.go`) and a
least-connections HTTP load balancer (`cmd/balancer/balancer.go`).

Keys, values and file contents are modelled as byte sequences (`List Nat`);
Go maps are modelled as association lists with unique keys.
-/

namespace Datastore

/-! ### Association lists (model of Go maps) -/

def aget {κ α : Type} [DecidableEq κ] : List (κ × α) → κ → Option α
  | [], _ => none
  | p :: t, k => if p.1 = k then some p.2 else aget t k

def adel {κ α : Type} [DecidableEq κ] : List (κ × α) → κ → List (κ × α)
  | [], _ => []
  | p :: t, k => if p.1 = k then adel t k else p :: adel t k

def aput {κ α : Type} [DecidableEq κ] (l : List (κ × α)) (k : κ) (v : α) :
    List (κ × α) :=
  (k, v) :: adel l k

def nodupKeys {κ α : Type} (l : List (κ × α)) : Prop :=
  (l.map Prod.fst).Nodup

variable {κ α : Type} [DecidableEq κ]

theorem aget_nil (k : κ) : aget ([] : List (κ × α)) k = none := rfl

theorem aget_adel_ne (l : List (κ × α)) {k k' : κ} (h : k' ≠ k) :
    aget (adel l k) k' = aget l k' := by
  induction l with
  | nil => rfl
  | cons p t ih =>
    simp only [adel, aget]
    by_cases hp : p.1 = k
    · simp only [hp, if_true, ih]
      have : ¬ (k = k') := fun hk => h hk.symm
      simp [aget, this]
    · simp only [hp, if_false, aget, ih]

theorem aget_adel_self (l : List (κ × α)) (k : κ) :
    aget (adel l k) k = none := by
  induction l with
  | nil => rfl
  | cons p t ih =>
    simp only [adel]
    by_cases hp : p.1 = k
    · simp [hp, ih]
    · simp [aget, hp, ih]

theorem aget_aput_self (l : List (κ × α)) (k : κ) (v : α) :
    aget (aput l k v) k = some v := by
  simp [aput, aget]

theorem aget_aput_ne (l : List (κ × α)) {k k' : κ} (v : α) (h : k' ≠ k) :
    aget (aput l k v) k' = aget l k' := by
  have : ¬ (k = k') := fun hk => h hk.symm
  simp [aput, aget, this, aget_adel_ne l h]

theorem aget_eq_none_of_not_mem {l : List (κ × α)} {k : κ}
    (h : k ∉ l.map Prod.fst) : aget l k = none := by
  induction l with
  | nil => rfl
  | cons p t ih =>
    simp only [List.map, List.mem_cons] at h
    push_neg at h
    have hp : ¬ (p.1 = k) := fun hk => h.1 hk.symm
    simp [aget, hp, ih h.2]

theorem not_mem_map_fst_adel (l : List (κ × α)) (k : κ) :
    k ∉ (adel l k).map Prod.fst := by
  induction l with
  | nil => simp [adel]
  | cons p t ih =>
    simp only [adel]
    by_cases hp : p.1 = k
    · simpa [hp] using ih
    · simp only [hp, if_false, List.map, List.mem_cons]
      intro hmem
      rcases hmem with hmem | hmem
      · exact hp hmem.symm
      · exact ih hmem

theorem map_fst_adel_subset (l : List (κ × α)) (k : κ) :
    (adel l k).map Prod.fst ⊆ l.map Prod.fst := by
  induction l with
  | nil => simp [adel]
  | cons q s ihs =>
    intro x hx
    simp only [adel] at hx
    by_cases hq : q.1 = k
    · simp only [hq, if_true] at hx
      exact List.mem_cons_of_mem _ (ihs hx)
    · simp only [hq, if_false, List.map, List.mem_cons] at hx
      rcases hx with hx | hx
      · exact hx ▸ List.mem_cons_self _ _
      · exact List.mem_cons_of_mem _ (ihs hx)

theorem nodupKeys_adel {l : List (κ × α)} (k : κ) (h : nodupKeys l) :
    nodupKeys (adel l k) := by
  induction l with
  | nil => simpa [adel] using h
  | cons p t ih =>
    simp only [nodupKeys, List.map, List.nodup_cons] at h
    by_cases hp : p.1 = k
    · simpa [adel, hp] using ih h.2
    · have ht := ih h.2
      simp only [nodupKeys, adel, hp, if_false, List.map, List.nodup_cons]
      refine ⟨fun hmem => ?_, ht⟩
      exact h.1 (map_fst_adel_subset t k hmem)

theorem nodupKeys_aput {l : List (κ × α)} (k : κ) (v : α) (h : nodupKeys l) :
    nodupKeys (aput l k v) := by
  simp only [nodupKeys, aput, List.map, List.nodup_cons]
  exact ⟨not_mem_map_fst_adel l k, nodupKeys_adel k h⟩

theorem aget_ne_none_iff_mem {l : List (κ × α)} {k : κ} :
    aget l k ≠ none ↔ k ∈ l.map Prod.fst := by
  induction l with
  | nil => simp [aget]
  | cons p t ih =>
    simp only [aget, List.map, List.mem_cons]
    by_cases hp : p.1 = k
    · simp [hp]
    · have : ¬ (k = p.1) := fun hk => hp hk.symm
      simp [hp, this, ih]

/-! ### Record codec

Modelled from the spec: the file `datastore/entry.go` (type `entry` with
`Encode` and `DecodeFromReader`) is not part of the provided sources; only
its callers in `datastore/db.go` are. The spec (section 4.1) describes it as
a self-delimiting, length-prefixed, deterministic and round-trippable
framing of `(key, value)` pairs whose streaming decode yields the record and
the exact number of bytes consumed; a trailing record cut short at EOF
reports the (nonzero) number of bytes it consumed, and an immediate EOF
reports zero bytes consumed. -/

/-- A byte string: keys, values and file contents are opaque byte sequences. -/
abbrev Bytes := List Nat

structure Entry where
  key : Bytes
  value : Bytes
deriving DecidableEq

/-- Modelled from the spec: length-prefixed encoding of one record.
The two length fields are followed by the raw key and value bytes. -/
def encode (e : Entry) : Bytes :=
  e.key.length :: e.value.length :: (e.key ++ e.value)

/-- Result of decoding one record from a stream: either a record together
with the number of bytes consumed, or EOF after consuming `n` bytes
(`n = 0` means the stream was exhausted exactly at a record boundary). -/
inductive DecodeResult where
  | ok (e : Entry) (n : Nat)
  | eof (n : Nat)
deriving DecidableEq

/-- Modelled from the spec: decode one record from the front of a stream. -/
def decodeOne : Bytes → DecodeResult
  | [] => .eof 0
  | [_] => .eof 1
  | kl :: vl :: rest =>
    if kl + vl ≤ rest.length then
      .ok ⟨rest.take kl, (rest.drop kl).take vl⟩ (2 + kl + vl)
    else
      .eof (2 + rest.length)

theorem take_append_of_le {β : Type} {n : Nat} {xs ys : List β}
    (h : n ≤ xs.length) : (xs ++ ys).take n = xs.take n :=
  List.take_append_of_le_length h

theorem drop_append_of_le {β : Type} {n : Nat} {xs ys : List β}
    (h : n ≤ xs.length) : (xs ++ ys).drop n = xs.drop n ++ ys :=
  List.drop_append_of_le_length h

theorem decodeOne_encode_append (e : Entry) (rest : Bytes) :
    decodeOne (encode e ++ rest) = .ok e (encode e).length := by
  obtain ⟨k, v⟩ := e
  have harr : encode ⟨k, v⟩ ++ rest
      = k.length :: v.length :: (k ++ (v ++ rest)) := by
    simp [encode]
  have hlen : (encode ⟨k, v⟩).length = 2 + k.length + v.length := by
    simp [encode, List.length_append]
    omega
  rw [harr, hlen]
  have hle : k.length + v.length ≤ (k ++ (v ++ rest)).length := by
    simp only [List.length_append]
    omega
  simp only [decodeOne]
  rw [if_pos hle]
  have htake : (k ++ (v ++ rest)).take k.length = k := by
    rw [take_append_of_le (Nat.le_refl _), List.take_length]
  have hdrop : (k ++ (v ++ rest)).drop k.length = v ++ rest := by
    rw [drop_append_of_le (Nat.le_refl _), List.drop_length, List.nil_append]
  rw [htake, hdrop, take_append_of_le (Nat.le_refl _), List.take_length]

theorem decodeOne_encode (e : Entry) :
    decodeOne (encode e) = .ok e (encode e).length := by
  have := decodeOne_encode_append e []
  simpa using this

theorem decodeOne_ok_facts {bs : Bytes} {e : Entry} {n : Nat}
    (h : decodeOne bs = .ok e n) : 2 ≤ n ∧ n ≤ bs.length := by
  match bs, h with
  | kl :: vl :: rest, h =>
    simp only [decodeOne] at h
    by_cases hle : kl + vl ≤ rest.length
    · rw [if_pos hle] at h
      cases h
      constructor
      · omega
      · simp only [List.length_cons]
        omega
    · rw [if_neg hle] at h
      cases h

theorem decodeOne_append_stable {bs : Bytes} {e : Entry} {n : Nat}
    (more : Bytes) (h : decodeOne bs = .ok e n) :
    decodeOne (bs ++ more) = .ok e n := by
  match bs, h with
  | kl :: vl :: rest, h =>
    simp only [decodeOne] at h
    by_cases hle : kl + vl ≤ rest.length
    · rw [if_pos hle] at h
      cases h
      simp only [List.cons_append, decodeOne]
      have hle2 : kl + vl ≤ (rest ++ more).length := by
        simp only [List.length_append]
        omega
      rw [if_pos hle2]
      have h1 : (rest ++ more).take kl = rest.take kl :=
        take_append_of_le (Nat.le_trans (Nat.le_add_right _ _) hle)
      have h2 : (rest ++ more).drop kl = rest.drop kl ++ more :=
        drop_append_of_le (Nat.le_trans (Nat.le_add_right _ _) hle)
      have h3 : (rest.drop kl ++ more).take vl = (rest.drop kl).take vl := by
        apply take_append_of_le
        simp only [List.length_drop]
        omega
      rw [h1, h2, h3]
    · rw [if_neg hle] at h
      cases h

/-- Decoding the value stored at a byte offset of a file. -/
def decodeValueAt (bytes : Bytes) (off : Nat) : Option Bytes :=
  match decodeOne (bytes.drop off) with
  | .ok e _ => some e.value
  | .eof _ => none

theorem decodeOne_drop_append {bytes more : Bytes} {off : Nat} {e : Entry}
    {n : Nat} (h : decodeOne (bytes.drop off) = .ok e n) :
    decodeOne ((bytes ++ more).drop off) = .ok e n := by
  have hoff : off ≤ bytes.length := by
    by_contra hgt
    push_neg at hgt
    have : bytes.drop off = [] := List.drop_eq_nil_of_le (Nat.le_of_lt hgt)
    rw [this] at h
    cases h
  rw [drop_append_of_le hoff]
  exact decodeOne_append_stable more h

theorem decodeValueAt_append {bytes more : Bytes} {off : Nat} {v : Bytes}
    (h : decodeValueAt bytes off = some v) :
    decodeValueAt (bytes ++ more) off = some v := by
  unfold decodeValueAt at h ⊢
  cases hd : decodeOne (bytes.drop off) with
  | ok e n =>
    rw [hd] at h
    rw [decodeOne_drop_append hd]
    exact h
  | eof n =>
    rw [hd] at h
    cases h

/-! ### Engine state (`datastore/db.go`, type `Db`)

The single data directory is implicit: `log` holds the bytes of the active
log file `current-data`, `files` maps each sealed segment id `N` to the
bytes of the file `N.segment`, and `tmp` holds the contents of `merge.tmp`
when that transient file exists. `index` and `segments` are the two
in-memory maps of the Go struct (`hashIndex` and `segments`); a
`segmentInfo` names the segment file and the byte offset of a record. -/

structure SegmentInfo where
  file : Nat
  offset : Nat
deriving DecidableEq

structure Db where
  log : Bytes
  outOffset : Nat
  segmentSize : Nat
  segmentNum : Nat
  index : List (Bytes × Nat)
  segments : List (Bytes × SegmentInfo)
  files : List (Nat × Bytes)
  tmp : Option Bytes

/-- Translation of `Db.Get`: the segment map is consulted first, then the
active-log index; the record is decoded at the stored offset. Read errors
and `ErrNotFound` are both collapsed to `none`. -/
def Db.Get (db : Db) (key : Bytes) : Option Bytes :=
  match aget db.segments key with
  | some si =>
    match aget db.files si.file with
    | some bytes => decodeValueAt bytes si.offset
    | none => none
  | none =>
    match aget db.index key with
    | some off => decodeValueAt db.log off
    | none => none

/-- The index-migration loop of `Db.createNewSegment`: every active-log
index entry is repointed at the freshly sealed segment, its offset kept. -/
def migrateIndex (idx : List (Bytes × Nat)) (segId : Nat)
    (segs : List (Bytes × SegmentInfo)) : List (Bytes × SegmentInfo) :=
  idx.foldl (fun s p => aput s p.1 ⟨segId, p.2⟩) segs

/-- Translation of `Db.createNewSegment` (rollover): the active log is
renamed to `<segmentNum>.segment`, index entries are migrated into the
segment map, and a fresh empty active log is started. The asynchronous
`go db.MergeSegments()` it spawns is modelled as a separate operation
(`DbOp.merge`), since it runs concurrently. -/
def Db.createNewSegment (db : Db) : Db :=
  let segId := db.segmentNum
  { db with
    files := aput db.files segId db.log,
    segments := migrateIndex db.index segId db.segments,
    index := [],
    segmentNum := segId + 1,
    log := [],
    outOffset := 0 }

/-- The write half of `Db.Put`: append the encoded record to the active
log, drop any segment mapping for the key, point the index at the record. -/
def Db.append (db : Db) (key value : Bytes) : Db :=
  { db with
    log := db.log ++ encode ⟨key, value⟩,
    segments := adel db.segments key,
    index := aput db.index key db.outOffset,
    outOffset := db.outOffset + (encode ⟨key, value⟩).length }

/-- Translation of `Db.Put` (successful write): rollover if the encoded
record would push the active log past `segmentSize` (when positive), then
append. -/
def Db.Put (db : Db) (key value : Bytes) : Db :=
  let encoded := encode ⟨key, value⟩
  let db :=
    if 0 < db.segmentSize ∧ db.segmentSize < db.outOffset + encoded.length
    then db.createNewSegment else db
  db.append key value

/-- The state `Open` produces on an empty directory: empty active log,
no segments. -/
def openEmpty (segmentSize : Nat) : Db :=
  { log := [], outOffset := 0, segmentSize := segmentSize, segmentNum := 0,
    index := [], segments := [], files := [], tmp := none }

/-- Run a sequence of successful `Put` operations from a fresh engine. -/
def runPuts (segmentSize : Nat) (ops : List (Bytes × Bytes)) : Db :=
  ops.foldl (fun db p => db.Put p.1 p.2) (openEmpty segmentSize)

/-- The value of the latest `Put` for a key in a sequence of operations. -/
def lastPut (ops : List (Bytes × Bytes)) (k : Bytes) : Option Bytes :=
  ops.foldl (fun acc p => if p.1 = k then some p.2 else acc) none

/-! ### Recovery (`Open`, `Db.recover`, `Db.recoverFromSegment`)

The scan loops of `recover` are written with an explicit fuel argument,
always invoked with fuel equal to the length of the byte stream; since every
decoded record consumes at least two bytes, the fuel never runs out. -/

/-- The active-log scan loop of `Db.recover`: each decoded record sets
`index[key] = offset`; EOF after zero consumed bytes ends the scan cleanly,
EOF after a nonzero number of consumed bytes is a corrupted file. -/
def scanActiveGo : Nat → Bytes → Nat → List (Bytes × Nat) →
    Except Unit (List (Bytes × Nat) × Nat)
  | fuel, bytes, off, idx =>
    match decodeOne bytes with
    | .eof 0 => .ok (idx, off)
    | .eof (_ + 1) => .error ()
    | .ok e n =>
      match fuel with
      | 0 => .error ()
      | fuel' + 1 => scanActiveGo fuel' (bytes.drop n) (off + n) (aput idx e.key off)

def scanActive (bytes : Bytes) : Except Unit (List (Bytes × Nat) × Nat) :=
  scanActiveGo bytes.length bytes 0 []

/-- The scan loop of `Db.recoverFromSegment`: each decoded record sets
`segments[key]` to this segment and offset and deletes the key from the
active-log index. -/
def scanSegmentGo : Nat → Bytes → Nat → Nat → List (Bytes × Nat) →
    List (Bytes × SegmentInfo) →
    Except Unit (List (Bytes × Nat) × List (Bytes × SegmentInfo))
  | fuel, bytes, segId, off, idx, segs =>
    match decodeOne bytes with
    | .eof 0 => .ok (idx, segs)
    | .eof (_ + 1) => .error ()
    | .ok e n =>
      match fuel with
      | 0 => .error ()
      | fuel' + 1 =>
        scanSegmentGo fuel' (bytes.drop n) segId (off + n)
          (adel idx e.key) (aput segs e.key ⟨segId, off⟩)

def scanSegment (bytes : Bytes) (segId : Nat) (idx : List (Bytes × Nat))
    (segs : List (Bytes × SegmentInfo)) :
    Except Unit (List (Bytes × Nat) × List (Bytes × SegmentInfo)) :=
  scanSegmentGo bytes.length bytes segId 0 idx segs

/-- Decimal digits of `n`, least significant first, as ASCII bytes. -/
def digitsRev : Nat → Nat → Bytes
  | 0, _ => []
  | fuel + 1, n => if n = 0 then [] else (48 + n % 10) :: digitsRev fuel (n / 10)

/-- The file name `"<N>.segment"` as a byte string, as produced by
`fmt.Sprintf` and compared byte-wise by `sort.Strings`. -/
def segNameBytes (n : Nat) : Bytes :=
  (if n = 0 then [48] else (digitsRev n n).reverse)
    ++ [46, 115, 101, 103, 109, 101, 110, 116]

/-- Byte-wise lexicographic order on byte strings (Go string comparison). -/
def bytesLt : Bytes → Bytes → Bool
  | [], [] => false
  | [], _ :: _ => true
  | _ :: _, [] => false
  | a :: as, b :: bs => if a < b then true else if b < a then false else bytesLt as bs

def bytesLe (a b : Bytes) : Bool := !(bytesLt b a)

def insertBy {β : Type} (le : β → β → Bool) (a : β) : List β → List β
  | [] => [a]
  | b :: t => if le a b then a :: b :: t else b :: insertBy le a t

def sortBy {β : Type} (le : β → β → Bool) : List β → List β
  | [] => []
  | a :: t => insertBy le a (sortBy le t)

/-- Segment files sorted ascending by file name, as `sort.Strings` orders
the glob result in `Db.recover`. -/
def sortSegAsc (files : List (Nat × Bytes)) : List (Nat × Bytes) :=
  sortBy (fun p q => bytesLe (segNameBytes p.1) (segNameBytes q.1)) files

/-- Segment files sorted descending by file name, as
`sort.Sort(sort.Reverse(sort.StringSlice(...)))` orders them in
`Db.MergeSegments`. -/
def sortSegDesc (files : List (Nat × Bytes)) : List (Nat × Bytes) :=
  sortBy (fun p q => bytesLe (segNameBytes q.1) (segNameBytes p.1)) files

/-- One iteration of the segment loop of `Db.recover`: recover from one
segment file and update the next segment id (`max(parsed id) + 1`). -/
def recoverStep (acc : Except Unit (List (Bytes × Nat) ×
    List (Bytes × SegmentInfo) × Nat)) (p : Nat × Bytes) :
    Except Unit (List (Bytes × Nat) × List (Bytes × SegmentInfo) × Nat) :=
  match acc with
  | .error _ => .error ()
  | .ok (idx, segs, segNum) =>
    match scanSegment p.2 p.1 idx segs with
    | .error _ => .error ()
    | .ok (idx', segs') =>
      .ok (idx', segs', if segNum ≤ p.1 then p.1 + 1 else segNum)

/-- Translation of `Open` + `Db.recover`: scan the active log, then every
`*.segment` file in ascending name order, tracking the next segment id as
`max(parsed id) + 1`; any mid-record EOF aborts the whole open. -/
def recoverDb (segmentSize : Nat) (files : List (Nat × Bytes)) (log : Bytes) :
    Except Unit Db :=
  match scanActive log with
  | .error _ => .error ()
  | .ok (idx0, off) =>
    match (sortSegAsc files).foldl recoverStep (.ok (idx0, [], 0)) with
    | .error _ => .error ()
    | .ok (idx, segs, segNum) =>
      .ok { log := log, outOffset := off, segmentSize := segmentSize,
            segmentNum := segNum, index := idx, segments := segs,
            files := files, tmp := none }

/-- Close followed by Open on the same directory: the on-disk state
(`files` and `log`) survives, everything in memory is rebuilt. -/
def reopenDb (db : Db) : Except Unit Db :=
  recoverDb db.segmentSize db.files db.log

/-- `Get` after a Close + Open round trip (`none` when the open fails). -/
def getAfterReopen (db : Db) (k : Bytes) : Option Bytes :=
  match reopenDb db with
  | .ok db' => db'.Get k
  | .error _ => none

/-! ### Merge (`Db.MergeSegments`)

I/O failures of the merge pass are injected through a `MergeFail`
parameter naming the operation of `Db.MergeSegments` that fails: creating
`merge.tmp`, reading an input segment, writing a record, or the final
rename. `none` injects no failure. -/

inductive MergeFail where
  | openTemp
  | scanErr
  | writeErr
  | renameErr
deriving DecidableEq

/-- The inner read loop of the merge scan: decode records until EOF.
Unlike `recover`, the merge loop breaks on any EOF, even mid-record. -/
def readEntriesGo : Nat → Bytes → List Entry
  | fuel, bytes =>
    match decodeOne bytes with
    | .eof _ => []
    | .ok e n =>
      match fuel with
      | 0 => []
      | fuel' + 1 => e :: readEntriesGo fuel' (bytes.drop n)

def readEntries (bytes : Bytes) : List Entry :=
  readEntriesGo bytes.length bytes

/-- One step of building `allKeys`: the first-seen occurrence of a key is
kept, later occurrences are ignored. -/
def addFirstSeen (allKeys : List (Bytes × Bytes)) (e : Entry) :
    List (Bytes × Bytes) :=
  match aget allKeys e.key with
  | some _ => allKeys
  | none => allKeys ++ [(e.key, e.value)]

/-- The scan phase of `Db.MergeSegments`: fold every record of every input
segment (in the given file order) into the `allKeys` map, first seen wins. -/
def mergeScan (files : List (Nat × Bytes)) : List (Bytes × Bytes) :=
  files.foldl (fun acc p => (readEntries p.2).foldl addFirstSeen acc) []

/-- The write phase: serialize every `(key, value)` pair of `allKeys`,
recording the offset of each encoded record (the `newSegments` map). -/
def writeAllGo : List (Bytes × Bytes) → Nat → Bytes × List (Bytes × Nat)
  | [], _ => ([], [])
  | (k, v) :: t, off =>
    let enc := encode ⟨k, v⟩
    let r := writeAllGo t (off + enc.length)
    (enc ++ r.1, (k, off) :: r.2)

/-- The repoint loop after the rename: for each merged key whose current
location is still in the segment map, point it at the merged file. -/
def repointSegments (segs : List (Bytes × SegmentInfo))
    (offs : List (Bytes × Nat)) (mergedId : Nat) :
    List (Bytes × SegmentInfo) :=
  offs.foldl
    (fun segs ko =>
      match aget segs ko.1 with
      | some _ => aput segs ko.1 ⟨mergedId, ko.2⟩
      | none => segs) segs

/-- Translation of `Db.MergeSegments` with injected I/O failures: glob and
sort the segment files descending by name, return if fewer than two, scan
them building `allKeys` (first seen wins), write `merge.tmp`, rename it to
`<segmentNum>.segment`, repoint the segment map, unlink the input files and
bump `segmentNum`. Every failure closes and removes `merge.tmp` and
returns. -/
def Db.MergeSegmentsWith (db : Db) (fail : Option MergeFail) : Db :=
  let segmentFiles := sortSegDesc db.files
  if segmentFiles.length < 2 then db
  else if fail = some .openTemp then db
  else
    let db1 : Db := { db with tmp := some [] }
    if fail = some .scanErr then { db1 with tmp := none }
    else
      let allKeys := mergeScan segmentFiles
      if fail = some .writeErr then { db1 with tmp := none }
      else
        let w := writeAllGo allKeys 0
        let db2 : Db := { db1 with tmp := some w.1 }
        if fail = some .renameErr then { db2 with tmp := none }
        else
          let mergedId := db2.segmentNum
          { db2 with
            tmp := none,
            files := segmentFiles.foldl (fun fs p => adel fs p.1)
              (aput db2.files mergedId w.1),
            segments := repointSegments db2.segments w.2 mergedId,
            segmentNum := db2.segmentNum + 1 }

/-- The merge as spawned by rollover, with no injected failure. -/
def Db.MergeSegments (db : Db) : Db :=
  db.MergeSegmentsWith none

/-! ### Reachable engine states -/

/-- The operations that produce engine states: a successful `Put` (with its
internal rollover), the asynchronous `MergeSegments` pass (possibly
failing), and a Close + Open round trip. -/
inductive DbOp where
  | put (k v : Bytes)
  | merge (fail : Option MergeFail)
  | reopen

def runOp (db : Db) : DbOp → Db
  | .put k v => db.Put k v
  | .merge fail => db.MergeSegmentsWith fail
  | .reopen =>
    match reopenDb db with
    | .ok db' => db'
    | .error _ => db

def runOps (db : Db) (ops : List DbOp) : Db :=
  ops.foldl runOp db

/-- The key sets of the active-log index and of the segment map are
disjoint. -/
def DisjDb (db : Db) : Prop :=
  ∀ k, aget db.index k ≠ none → aget db.segments k = none

end Datastore

namespace Balancer

/-! ### Load balancer (`cmd/balancer/balancer.go`) -/

structure BackendServer where
  Address : String
  ConnCounter : Int
  IsHealthy : Bool
deriving DecidableEq

/-- The initial `math.MaxInt32` value of `minConns` in
`getLeastConnectedServer`. -/
def maxInt32 : Int := 2147483647

/-- The loop body of `getLeastConnectedServer`, carrying the running
`selected` pointer and `minConns` value. -/
def selectGo : List BackendServer → Option BackendServer → Int →
    Option BackendServer
  | [], selected, _ => selected
  | server :: rest, selected, minConns =>
    if server.IsHealthy && decide (server.ConnCounter < minConns) then
      selectGo rest (some server) server.ConnCounter
    else
      selectGo rest selected minConns

/-- Translation of `getLeastConnectedServer`: scan the pool keeping the
first healthy server with a strictly smaller connection counter than any
seen so far, starting from `math.MaxInt32`. -/
def getLeastConnectedServer (pool : List BackendServer) :
    Option BackendServer :=
  selectGo pool none maxInt32

/-- The dispatcher's per-request decision in `main`: forward to the selected
server, or answer 503 with the fixed body when none is available. -/
inductive DispatchDecision where
  | forwardTo (s : BackendServer)
  | unavailable (status : Nat) (body : String)
deriving DecidableEq

def dispatch (pool : List BackendServer) : DispatchDecision :=
  match getLeastConnectedServer pool with
  | none => .unavailable 503 "No available backend server"
  | some s => .forwardTo s

/-- Translation of `health`: the probe's outcome, `none` for a transport
error, `some code` for an HTTP response; true only for status 200. -/
def health (resp : Option Nat) : Bool :=
  match resp with
  | none => false
  | some code => code == 200

/-- Translation of one probe tick of the goroutine in `main`: the flag is
assigned `true`, then `health` is called and its result only logged. The
second component is the logged value. -/
def probeTick (server : BackendServer) (resp : Option Nat) :
    BackendServer × Bool :=
  ({ server with IsHealthy := true }, health resp)

/-! ### Flag initialization order for `--timeout-sec`

In `balancer.go` the package-level variable `timeout` is computed as
`time.Duration(*timeoutSec) * time.Second` when the `var` block is
initialized, which in Go happens before `main` calls `flag.Parse()`. -/

/-- The registered default of the `timeout-sec` flag. -/
def timeoutSecDefault : Nat := 3

structure FlagState where
  timeoutSecFlag : Nat

/-- Flag registration: the flag variable holds its default value. -/
def flagRegister : FlagState := { timeoutSecFlag := timeoutSecDefault }

/-- The package `var` block reads `*timeoutSec` to build `timeout`. -/
def packageInitTimeout (fs : FlagState) : Nat := fs.timeoutSecFlag

/-- `flag.Parse()` stores the command-line value into the flag variable. -/
def flagParse (cli : Option Nat) (fs : FlagState) : FlagState :=
  { timeoutSecFlag := cli.getD fs.timeoutSecFlag }

/-- The deadline (in seconds) that `health` and `forward` actually use for
a given `--timeout-sec` command line value: `timeout` is initialized from
the flag before `flag.Parse` runs, so the parsed value never reaches it. -/
def effectiveTimeoutSec (cli : Option Nat) : Nat :=
  let fs0 := flagRegister
  let t := packageInitTimeout fs0
  let _fs1 := flagParse cli fs0
  t

/-! ### Response forwarding (`forward`, success path) -/

/-- Operations `forward` performs on the `http.ResponseWriter`. -/
inductive WriterOp where
  | add (k v : String)
  | set (k v : String)
  | writeHeader (status : Nat)
  | writeBody (b : String)

/-- The header-copy loop of `forward`: one `Add` per upstream header value,
in order. -/
def addEvents (upstream : List (String × List String)) : List WriterOp :=
  upstream.foldr (fun kv acc => kv.2.map (WriterOp.add kv.1) ++ acc) []

/-- The ordered writer operations of `forward`'s success path: copy every
upstream header value with `Add`, then `Set` the `lb-from` header when
tracing is enabled, then write the status code, then stream the body. -/
def forwardOps (trace : Bool) (dst : String)
    (upstream : List (String × List String)) (status : Nat) (body : String) :
    List WriterOp :=
  addEvents upstream
    ++ (if trace then [.set "lb-from" dst] else [])
    ++ [.writeHeader status, .writeBody body]

/-- Multi-valued header map of the response under construction. -/
abbrev Headers := List (String × List String)

def addHeader (hs : Headers) (k v : String) : Headers :=
  match Datastore.aget hs k with
  | some vs => Datastore.aput hs k (vs ++ [v])
  | none => Datastore.aput hs k [v]

def setHeader (hs : Headers) (k v : String) : Headers :=
  Datastore.aput hs k [v]

structure RespState where
  headers : Headers
  status : Option Nat
  body : String

/-- Semantics of the response writer: header mutations are effective only
before the status code is written (as in `net/http`), the body accumulates
after it. -/
def applyOp (st : RespState) (op : WriterOp) : RespState :=
  match op with
  | .add k v =>
    if st.status = none then { st with headers := addHeader st.headers k v } else st
  | .set k v =>
    if st.status = none then { st with headers := setHeader st.headers k v } else st
  | .writeHeader code =>
    if st.status = none then { st with status := some code } else st
  | .writeBody b => { st with body := st.body ++ b }

def runWriter (ops : List WriterOp) : RespState :=
  ops.foldl applyOp { headers := [], status := none, body := "" }

/-- The complete client response produced by `forward`'s success path. -/
def forwardResponse (trace : Bool) (dst : String)
    (upstream : List (String × List String)) (status : Nat) (body : String) :
    RespState :=
  runWriter (forwardOps trace dst upstream status body)

end Balancer

namespace Datastore

/-! ### Claim C1 -/

/-- The run that exhibits the recovery bug: two Puts of the same key with a
rollover between them (segment size 4, each record 4 bytes long). -/
def c1Ops : List (Bytes × Bytes) := [([0], [1]), ([0], [2])]

/-- C1: the claim fails on the code. After `Put([0],[1])`, a rollover, and
`Put([0],[2])`, `Get [0]` returns the latest value `[2]`; but after Close +
Open on the same directory it returns the stale segment value `[1]`,
because `recoverFromSegment` deletes the newer active-log index entry for
every key found in a segment and `Get` prefers the segment map. -/
theorem c1_reopen_returns_stale_value :
    lastPut c1Ops [0] = some [2]
    ∧ (runPuts 4 c1Ops).Get [0] = some [2]
    ∧ getAfterReopen (runPuts 4 c1Ops) [0] = some [1]
    ∧ getAfterReopen (runPuts 4 c1Ops) [0] ≠ lastPut c1Ops [0] := by
  decide

/-! ### Claim C3 -/

/-- Two input segments holding the same key: `2.segment` (older, value
`[2]`) and `10.segment` (newer, value `[10]`). -/
def c3Files : List (Nat × Bytes) := [(2, encode ⟨[7], [2]⟩), (10, encode ⟨[7], [10]⟩)]

/-- An engine state owning those two segments, its segment map pointing the
key at the newest segment `10`. -/
def c3Db : Db :=
  { log := [], outOffset := 0, segmentSize := 100, segmentNum := 11,
    index := [], segments := [([7], SegmentInfo.mk 10 0)],
    files := c3Files, tmp := none }

/-- C3: the claim fails on the code. The merge sorts segment file names in
descending string order, and `"2.segment"` sorts above `"10.segment"`, so
the scan visits the older segment 2 first and its value `[2]` wins
first-seen: the merged map and the post-merge `Get` both yield `[2]`, not
the value `[10]` of the newest input segment containing the key. -/
theorem c3_merge_keeps_stale_value :
    aget (mergeScan (sortSegDesc c3Files)) [7] = some [2]
    ∧ (c3Db.MergeSegments).Get [7] = some [2]
    ∧ some ([2] : Bytes) ≠ some [10] := by
  decide

/-! ### Claim C6 -/

/-- C6: any failure injected before (or at) the rename of `merge.tmp` —
failing to create the temp file, a read error while scanning an input
segment, a write error, or a failing rename — leaves the engine state
exactly as it was: the input segment files, the index and the segment map
are unchanged, and no temp file remains (`tmp = none`). -/
theorem c6_merge_failure_atomic (db : Db) (f : MergeFail) (h : db.tmp = none) :
    db.MergeSegmentsWith (some f) = db := by
  obtain ⟨log, outOffset, segmentSize, segmentNum, index, segments, files, tmp⟩ := db
  simp only at h
  subst h
  cases f <;> simp [Db.MergeSegmentsWith]

/-- A state with two sealed segments on disk and no temp file, about to be
merged. -/
def c6Db : Db :=
  { log := [], outOffset := 0, segmentSize := 100, segmentNum := 2,
    index := [], segments := [([1], SegmentInfo.mk 1 0)],
    files := [(0, encode ⟨[1], [5]⟩), (1, encode ⟨[1], [6]⟩)], tmp := none }

/-- Witness for C6: a failed scan of an input segment leaves the concrete
two-segment state untouched. -/
theorem c6_merge_failure_witness :
    c6Db.tmp = none ∧ c6Db.MergeSegmentsWith (some .scanErr) = c6Db :=
  ⟨rfl, c6_merge_failure_atomic c6Db .scanErr rfl⟩

/-! ### Claim C9 -/

/-- Concatenation of the encodings of a list of records: a well-formed log. -/
def encodeAll (es : List Entry) : Bytes :=
  es.foldr (fun e acc => encode e ++ acc) []

theorem scanActiveGo_fuel (f1 : Nat) : ∀ (f2 : Nat) (bytes : Bytes)
    (off : Nat) (idx : List (Bytes × Nat)), bytes.length ≤ f1 →
    bytes.length ≤ f2 →
    scanActiveGo f1 bytes off idx = scanActiveGo f2 bytes off idx := by
  induction f1 with
  | zero =>
    intro f2 bytes off idx h1 _
    have hb : bytes = [] := List.length_eq_zero.mp (Nat.le_zero.mp h1)
    subst hb
    rw [scanActiveGo, scanActiveGo]
    rfl
  | succ n ih =>
    intro f2 bytes off idx h1 h2
    rw [scanActiveGo]
    conv_rhs => rw [scanActiveGo]
    cases hd : decodeOne bytes with
    | eof m =>
      cases m <;> rfl
    | ok e m =>
      obtain ⟨hm2, hmlen⟩ := decodeOne_ok_facts hd
      cases f2 with
      | zero => omega
      | succ f2' =>
        simp only
        apply ih
        · simp only [List.length_drop]
          omega
        · simp only [List.length_drop]
          omega

theorem scanActiveGo_encode_step (e : Entry) (rest : Bytes) (off : Nat)
    (idx : List (Bytes × Nat)) (f : Nat)
    (hf : (encode e ++ rest).length ≤ f) :
    scanActiveGo f (encode e ++ rest) off idx
      = scanActiveGo rest.length rest (off + (encode e).length)
          (aput idx e.key off) := by
  have hlen : 2 ≤ (encode e ++ rest).length := by
    obtain ⟨k, v⟩ := e
    simp [encode, List.length_append]
  cases f with
  | zero => omega
  | succ f' =>
    rw [scanActiveGo]
    rw [decodeOne_encode_append]
    simp only
    rw [List.drop_left]
    apply scanActiveGo_fuel
    · have happ : (encode e ++ rest).length = (encode e).length + rest.length :=
        List.length_append _ _
      have henc : 1 ≤ (encode e).length := by
        obtain ⟨k, v⟩ := e
        simp [encode]
      omega
    · exact Nat.le_refl _

theorem scanActive_encodeAll (es : List Entry) : ∀ (off : Nat)
    (idx : List (Bytes × Nat)) (f : Nat), (encodeAll es).length ≤ f →
    ∃ r, scanActiveGo f (encodeAll es) off idx = .ok r := by
  induction es with
  | nil =>
    intro off idx f _
    refine ⟨(idx, off), ?_⟩
    rw [show encodeAll [] = [] from rfl, scanActiveGo]
    rfl
  | cons e t ih =>
    intro off idx f hf
    have hall : encodeAll (e :: t) = encode e ++ encodeAll t := rfl
    rw [hall] at hf ⊢
    rw [scanActiveGo_encode_step e (encodeAll t) off idx f hf]
    exact ih _ _ _ (Nat.le_refl _)

theorem scanActive_truncated (es : List Entry) (junk : Bytes) (n : Nat)
    (hj : decodeOne junk = .eof (n + 1)) : ∀ (off : Nat)
    (idx : List (Bytes × Nat)) (f : Nat), (encodeAll es ++ junk).length ≤ f →
    scanActiveGo f (encodeAll es ++ junk) off idx = .error () := by
  induction es with
  | nil =>
    intro off idx f _
    rw [show encodeAll [] ++ junk = junk from by simp [encodeAll]]
    rw [scanActiveGo, hj]
  | cons e t ih =>
    intro off idx f hf
    have hall : encodeAll (e :: t) ++ junk = encode e ++ (encodeAll t ++ junk) := by
      simp [encodeAll]
    rw [hall] at hf ⊢
    rw [scanActiveGo_encode_step e (encodeAll t ++ junk) off idx f hf]
    exact ih _ _ _ (Nat.le_refl _)

/-- C9: recovery of an active log made of whole records followed by a
truncated tail. A trailing fragment on which the decoder consumed a nonzero
number of bytes makes the whole `Open` fail with a corruption error,
whatever segment files are present; with no trailing fragment (the decoder
consumes zero bytes at EOF) `Open` succeeds. -/
theorem c9_recovery_eof_semantics (segmentSize : Nat) (es : List Entry)
    (junk : Bytes) (n : Nat) (files : List (Nat × Bytes)) :
    (decodeOne junk = .eof (n + 1) →
      recoverDb segmentSize files (encodeAll es ++ junk) = .error ())
    ∧ ∃ db, recoverDb segmentSize [] (encodeAll es) = .ok db := by
  constructor
  · intro hj
    unfold recoverDb scanActive
    rw [scanActive_truncated es junk n hj 0 [] _ (Nat.le_refl _)]
  · obtain ⟨r, hr⟩ := scanActive_encodeAll es 0 [] _ (Nat.le_refl _)
    unfold recoverDb scanActive
    rw [hr]
    exact ⟨_, rfl⟩

/-- Witness for C9: a one-record log with the stray byte `7` appended fails
to open; without the stray byte it opens fine. -/
theorem c9_recovery_eof_witness :
    recoverDb 0 [] (encodeAll [⟨[0], [1]⟩] ++ [7]) = .error ()
    ∧ ∃ db, recoverDb 0 [] (encodeAll [⟨[0], [1]⟩]) = .ok db :=
  ⟨(c9_recovery_eof_semantics 0 [⟨[0], [1]⟩] [7] 0 []).1 rfl,
   (c9_recovery_eof_semantics 0 [⟨[0], [1]⟩] [7] 0 []).2⟩

end Datastore

namespace Balancer

/-! ### Claim C2 -/

/-- C2: the claim fails on the code. A probe tick sets `IsHealthy = true`
unconditionally and only logs the result of `health`, so after a probe that
suffers a transport error (`none`) or a 500 response the flag is `true`
even though `health` reported `false`; `health` itself is true only for
status 200. -/
theorem c2_probe_ignores_health_result :
    (probeTick ⟨"server1:8080", 0, false⟩ none).1.IsHealthy = true
    ∧ (probeTick ⟨"server1:8080", 0, false⟩ (some 500)).1.IsHealthy = true
    ∧ (probeTick ⟨"server1:8080", 0, false⟩ none).2 = false
    ∧ health none = false
    ∧ health (some 500) = false
    ∧ health (some 200) = true := by
  decide

/-! ### Claim C4 -/

/-- C4: the claim fails on the code. The package variable `timeout` is
computed from the flag's default before `flag.Parse` runs, so the deadline
used by the health probe and by `forward` is always 3 seconds, also when
`--timeout-sec 5` is passed. -/
theorem c4_timeout_flag_ignored :
    effectiveTimeoutSec (some 5) = 3
    ∧ effectiveTimeoutSec (some 5) ≠ (some 5).getD 3
    ∧ (∀ cli : Option Nat, effectiveTimeoutSec cli = 3) :=
  ⟨rfl, by decide, fun _ => rfl⟩

/-! ### Claim C5 -/

/-- The first healthy server with a counter strictly below `bound` that no
later healthy server strictly undercuts: the value the selection loop ends
up with when started at `bound`. -/
def best : List BackendServer → Int → Option BackendServer
  | [], _ => none
  | s :: rest, bound =>
    if s.IsHealthy && decide (s.ConnCounter < bound) then
      match best rest s.ConnCounter with
      | some t => some t
      | none => some s
    else best rest bound

theorem selectGo_eq_best (pool : List BackendServer) : ∀ (sel : Option BackendServer)
    (bound : Int), selectGo pool sel bound
      = match best pool bound with
        | some t => some t
        | none => sel := by
  induction pool with
  | nil => intro sel bound; rfl
  | cons s rest ih =>
    intro sel bound
    cases hc : s.IsHealthy && decide (s.ConnCounter < bound) with
    | true =>
      simp only [selectGo, best, hc, if_true, ih]
      cases best rest s.ConnCounter <;> rfl
    | false =>
      simp only [selectGo, best, hc, Bool.false_eq_true, if_false, ih]

theorem best_none {pool : List BackendServer} : ∀ {bound : Int},
    best pool bound = none →
    ∀ s ∈ pool, s.IsHealthy = true → ¬(s.ConnCounter < bound) := by
  induction pool with
  | nil => intro bound _ s hs; cases hs
  | cons q rest ih =>
    intro bound h s hs
    by_cases hc : q.IsHealthy && decide (q.ConnCounter < bound)
    · simp only [best, hc, if_true] at h
      cases hb : best rest q.ConnCounter <;> rw [hb] at h <;> cases h
    · simp only [best, hc, if_false] at h
      rcases List.mem_cons.mp hs with hs | hs
      · subst hs
        intro hhealthy hlt
        exact hc (by simp [hhealthy, hlt])
      · exact ih h s hs

theorem best_some {pool : List BackendServer} : ∀ {bound : Int}
    {t : BackendServer}, best pool bound = some t →
    t ∈ pool ∧ t.IsHealthy = true ∧ t.ConnCounter < bound
      ∧ ∀ s ∈ pool, s.IsHealthy = true → s.ConnCounter < bound →
          t.ConnCounter ≤ s.ConnCounter := by
  induction pool with
  | nil => intro bound t h; cases h
  | cons q rest ih =>
    intro bound t h
    by_cases hc : q.IsHealthy && decide (q.ConnCounter < bound)
    · have hq : q.IsHealthy = true ∧ q.ConnCounter < bound := by
        simpa [Bool.and_eq_true, decide_eq_true_eq] using hc
      simp only [best, hc, if_true] at h
      cases hb : best rest q.ConnCounter with
      | some t' =>
        rw [hb] at h
        cases h
        obtain ⟨hmem, hhealthy, hlt, hmin⟩ := ih hb
        refine ⟨List.mem_cons_of_mem _ hmem, hhealthy,
          lt_trans hlt hq.2, ?_⟩
        intro s hs hsh hslt
        rcases List.mem_cons.mp hs with hs | hs
        · subst hs
          exact le_of_lt hlt
        · by_cases hsq : s.ConnCounter < q.ConnCounter
          · exact hmin s hs hsh hsq
          · exact le_trans (le_of_lt hlt) (not_lt.mp hsq)
      | none =>
        rw [hb] at h
        cases h
        refine ⟨List.mem_cons_self _ _, hq.1, hq.2, ?_⟩
        intro s hs hsh hslt
        rcases List.mem_cons.mp hs with hs | hs
        · subst hs; exact le_refl _
        · exact not_lt.mp (best_none hb s hs hsh)
    · simp only [best, hc, if_false] at h
      obtain ⟨hmem, hhealthy, hlt, hmin⟩ := ih h
      refine ⟨List.mem_cons_of_mem _ hmem, hhealthy, hlt, ?_⟩
      intro s hs hsh hslt
      rcases List.mem_cons.mp hs with hs | hs
      · subst hs
        exact absurd (by simp [hsh, hslt]) hc
      · exact hmin s hs hsh hslt

theorem best_first {pool : List BackendServer} : ∀ {bound : Int}
    {t : BackendServer}, best pool bound = some t →
    pool.find? (fun s => s.IsHealthy && decide (s.ConnCounter = t.ConnCounter))
      = some t := by
  induction pool with
  | nil => intro bound t h; cases h
  | cons q rest ih =>
    intro bound t h
    by_cases hc : q.IsHealthy && decide (q.ConnCounter < bound)
    · have hq : q.IsHealthy = true ∧ q.ConnCounter < bound := by
        simpa [Bool.and_eq_true, decide_eq_true_eq] using hc
      simp only [best, hc, if_true] at h
      cases hb : best rest q.ConnCounter with
      | some t' =>
        rw [hb] at h
        cases h
        have hlt : t.ConnCounter < q.ConnCounter := (best_some hb).2.2.1
        have hne : ¬(q.ConnCounter = t.ConnCounter) := fun he =>
          absurd (he ▸ hlt) (lt_irrefl _)
        have hstep : List.find?
            (fun s => s.IsHealthy && decide (s.ConnCounter = t.ConnCounter)) (q :: rest)
            = List.find?
              (fun s => s.IsHealthy && decide (s.ConnCounter = t.ConnCounter)) rest :=
          List.find?_cons_of_neg rest (by simp [hne])
        exact hstep.trans (ih hb)
      | none =>
        rw [hb] at h
        cases h
        exact List.find?_cons_of_pos rest (by simp [hq.1])
    · simp only [best, hc, if_false] at h
      have hfirst := ih h
      have ht := best_some h
      have hhead : ¬(q.IsHealthy && decide (q.ConnCounter = t.ConnCounter)) = true := by
        intro habs
        have hq : q.IsHealthy = true ∧ q.ConnCounter = t.ConnCounter := by
          simpa [Bool.and_eq_true, decide_eq_true_eq] using habs
        exact hc (by simp [hq.1, hq.2 ▸ ht.2.2.1])
      have hstep : List.find?
          (fun s => s.IsHealthy && decide (s.ConnCounter = t.ConnCounter)) (q :: rest)
          = List.find?
            (fun s => s.IsHealthy && decide (s.ConnCounter = t.ConnCounter)) rest :=
        List.find?_cons_of_neg rest hhead
      exact hstep.trans hfirst

theorem best_none_of_unhealthy {pool : List BackendServer} : ∀ (bound : Int),
    (∀ s ∈ pool, s.IsHealthy = false) → best pool bound = none := by
  induction pool with
  | nil => intro bound _; rfl
  | cons q rest ih =>
    intro bound h
    have hq : q.IsHealthy = false := h q (List.mem_cons_self _ _)
    simp only [best, hq, Bool.false_and, Bool.false_eq_true, if_false]
    exact ih _ fun s hs => h s (List.mem_cons_of_mem _ hs)

/-- C5 (amended): whenever some healthy backend has an in-flight counter
strictly below the `math.MaxInt32` sentinel (always the case for realistic
counters), selection returns a healthy backend whose counter is minimal
among the healthy ones and which is the first such backend in iteration
order; and when no backend is healthy the dispatcher answers
503 Service Unavailable with body "No available backend server". -/
theorem c5_selection_amended (pool : List BackendServer) :
    ((∃ s ∈ pool, s.IsHealthy = true ∧ s.ConnCounter < maxInt32) →
      ∃ t, getLeastConnectedServer pool = some t
        ∧ t.IsHealthy = true
        ∧ (∀ s ∈ pool, s.IsHealthy = true → t.ConnCounter ≤ s.ConnCounter)
        ∧ pool.find? (fun s => s.IsHealthy && decide (s.ConnCounter = t.ConnCounter))
            = some t)
    ∧ ((∀ s ∈ pool, s.IsHealthy = false) →
      dispatch pool = .unavailable 503 "No available backend server") := by
  constructor
  · intro hex
    cases hb : best pool maxInt32 with
    | none =>
      obtain ⟨s, hs, hsh, hslt⟩ := hex
      exact absurd hslt (best_none hb s hs hsh)
    | some t =>
      obtain ⟨hmem, hhealthy, hlt, hmin⟩ := best_some hb
      refine ⟨t, ?_, hhealthy, ?_, best_first hb⟩
      · unfold getLeastConnectedServer
        rw [selectGo_eq_best, hb]
      · intro s hs hsh
        by_cases hslt : s.ConnCounter < maxInt32
        · exact hmin s hs hsh hslt
        · exact le_trans (le_of_lt hlt) (not_lt.mp hslt)
  · intro hall
    have hb := best_none_of_unhealthy maxInt32 hall
    unfold dispatch getLeastConnectedServer
    rw [selectGo_eq_best, hb]

/-- C5 counterexample: in a pool whose only backend is healthy but has an
in-flight counter equal to `math.MaxInt32`, selection returns no backend
and the dispatcher answers 503 although a healthy backend exists, so the
claim as stated fails at this pool state. -/
theorem c5_counterexample_sentinel :
    getLeastConnectedServer [⟨"a", 2147483647, true⟩] = none
    ∧ (⟨"a", 2147483647, true⟩ : BackendServer).IsHealthy = true
    ∧ dispatch [⟨"a", 2147483647, true⟩]
        = .unavailable 503 "No available backend server" := by
  refine ⟨rfl, rfl, rfl⟩

/-- The selection pool of spec scenario 7. -/
def c5Pool : List BackendServer :=
  [⟨"server1:8080", 5, true⟩, ⟨"server2:8080", 3, true⟩, ⟨"server3:8080", 10, true⟩]

/-- Witness for C5: on the scenario-7 pool the hypothesis holds and the
amended selection contract applies; an all-unhealthy pool yields the 503. -/
theorem c5_selection_witness :
    (∃ s ∈ c5Pool, s.IsHealthy = true ∧ s.ConnCounter < maxInt32)
    ∧ (∃ t, getLeastConnectedServer c5Pool = some t
        ∧ t.IsHealthy = true
        ∧ (∀ s ∈ c5Pool, s.IsHealthy = true → t.ConnCounter ≤ s.ConnCounter)
        ∧ c5Pool.find? (fun s => s.IsHealthy && decide (s.ConnCounter = t.ConnCounter))
            = some t)
    ∧ dispatch [⟨"x", 1, false⟩] = .unavailable 503 "No available backend server" :=
  ⟨by decide,
   (c5_selection_amended c5Pool).1 (by decide),
   (c5_selection_amended [⟨"x", 1, false⟩]).2 (by decide)⟩

/-! ### Claim C7 -/

/-- Copying all upstream header values into an existing header map, in
order, with `Add` semantics. -/
def copyInto (hs : Headers) (upstream : Headers) : Headers :=
  upstream.foldl (fun hs kv => kv.2.foldl (fun h v => addHeader h kv.1 v) hs) hs

def copyHeaders (upstream : Headers) : Headers := copyInto [] upstream

theorem applyOp_adds_vs (k : String) (vs : List String) : ∀ (st : RespState),
    st.status = none →
    (vs.map (WriterOp.add k)).foldl applyOp st
      = { st with headers := vs.foldl (fun h v => addHeader h k v) st.headers } := by
  induction vs with
  | nil =>
    intro st _
    cases st
    rfl
  | cons v t ih =>
    intro st hst
    simp only [List.map, List.foldl]
    have h1 : applyOp st (WriterOp.add k v)
        = { st with headers := addHeader st.headers k v } := by
      simp [applyOp, hst]
    rw [h1, ih _ (by simpa using hst)]

theorem applyOps_addEvents : ∀ (upstream : Headers) (st : RespState),
    st.status = none →
    (addEvents upstream).foldl applyOp st
      = { st with headers := copyInto st.headers upstream } := by
  intro upstream
  induction upstream with
  | nil =>
    intro st _
    cases st
    rfl
  | cons kv t ih =>
    intro st hst
    have hsplit : addEvents (kv :: t) = kv.2.map (WriterOp.add kv.1) ++ addEvents t := rfl
    rw [hsplit, List.foldl_append, applyOp_adds_vs kv.1 kv.2 st hst,
      ih _ (by simpa using hst)]
    rfl

/-- The response produced by `forward`'s success path, in closed form. -/
theorem forwardResponse_eq (trace : Bool) (dst : String) (upstream : Headers)
    (status : Nat) (body : String) :
    forwardResponse trace dst upstream status body
      = { headers :=
            if trace then setHeader (copyHeaders upstream) "lb-from" dst
            else copyHeaders upstream,
          status := some status, body := "" ++ body } := by
  unfold forwardResponse runWriter forwardOps
  rw [List.foldl_append, List.foldl_append,
    applyOps_addEvents upstream _ rfl]
  cases trace
  · rfl
  · rfl

theorem aget_addHeader_ne (hs : Headers) {k k' : String} (v : String)
    (h : k' ≠ k) :
    Datastore.aget (addHeader hs k v) k' = Datastore.aget hs k' := by
  unfold addHeader
  cases Datastore.aget hs k <;> simp [Datastore.aget_aput_ne _ _ h]

theorem aget_addAll_ne {k' k : String} (vs : List String) (h : k' ≠ k) :
    ∀ (hs : Headers),
    Datastore.aget (vs.foldl (fun h v => addHeader h k v) hs) k'
      = Datastore.aget hs k' := by
  induction vs with
  | nil => intro hs; rfl
  | cons v t ih =>
    intro hs
    simp only [List.foldl]
    rw [ih, aget_addHeader_ne hs v h]

theorem aget_addAll_self (k : String) (vs : List String) : ∀ (hs : Headers)
    (acc : List String), Datastore.aget hs k = some acc →
    Datastore.aget (vs.foldl (fun h v => addHeader h k v) hs) k
      = some (acc ++ vs) := by
  induction vs with
  | nil =>
    intro hs acc h
    simpa using h
  | cons v t ih =>
    intro hs acc h
    simp only [List.foldl]
    have h1 : addHeader hs k v = Datastore.aput hs k (acc ++ [v]) := by
      unfold addHeader
      rw [h]
    rw [h1]
    have := ih (Datastore.aput hs k (acc ++ [v])) (acc ++ [v])
      (Datastore.aget_aput_self _ _ _)
    simpa [List.append_assoc] using this

theorem aget_addAll_none (k : String) (vs : List String) (hne : vs ≠ []) :
    ∀ (hs : Headers), Datastore.aget hs k = none →
    Datastore.aget (vs.foldl (fun h v => addHeader h k v) hs) k = some vs := by
  cases vs with
  | nil => cases hne rfl
  | cons v t =>
    intro hs h
    simp only [List.foldl]
    have h1 : addHeader hs k v = Datastore.aput hs k [v] := by
      unfold addHeader
      rw [h]
    rw [h1]
    have := aget_addAll_self k t (Datastore.aput hs k [v]) [v]
      (Datastore.aget_aput_self _ _ _)
    simpa using this

theorem aget_copyInto_not_mem (k : String) : ∀ (upstream hs : Headers),
    k ∉ upstream.map Prod.fst →
    Datastore.aget (copyInto hs upstream) k = Datastore.aget hs k := by
  intro upstream
  induction upstream with
  | nil => intro hs _; rfl
  | cons kv t ih =>
    intro hs hk
    simp only [List.map, List.mem_cons] at hk
    push_neg at hk
    have hne : k ≠ kv.1 := hk.1
    show Datastore.aget
      (copyInto (kv.2.foldl (fun h v => addHeader h kv.1 v) hs) t) k = _
    rw [ih _ hk.2, aget_addAll_ne kv.2 hne hs]

theorem aget_copyInto_mem (k : String) (vs : List String) (hvs : vs ≠ []) :
    ∀ (upstream hs : Headers), Datastore.nodupKeys upstream →
    (k, vs) ∈ upstream → Datastore.aget hs k = none →
    Datastore.aget (copyInto hs upstream) k = some vs := by
  intro upstream
  induction upstream with
  | nil =>
    intro hs _ hmem _
    cases hmem
  | cons kv t ih =>
    intro hs hnd hmem hnone
    have hnd0 : (kv.1 :: t.map Prod.fst).Nodup := hnd
    have hhead : kv.1 ∉ t.map Prod.fst := (List.nodup_cons.mp hnd0).1
    have hnd' : Datastore.nodupKeys t := (List.nodup_cons.mp hnd0).2
    rcases List.mem_cons.mp hmem with heq | hmem
    · have hk1 : kv.1 = k := by rw [← heq]
      have hk2 : kv.2 = vs := by rw [← heq]
      show Datastore.aget
        (copyInto (kv.2.foldl (fun h v => addHeader h kv.1 v) hs) t) k = _
      rw [aget_copyInto_not_mem k t _ (hk1 ▸ hhead)]
      rw [hk1, hk2]
      exact aget_addAll_none k vs hvs hs hnone
    · have hkmem : k ∈ t.map Prod.fst :=
        List.mem_map.mpr ⟨(k, vs), hmem, rfl⟩
      have hne : k ≠ kv.1 := fun he => hhead (he ▸ hkmem)
      show Datastore.aget
        (copyInto (kv.2.foldl (fun h v => addHeader h kv.1 v) hs) t) k = _
      apply ih _ hnd' hmem
      rw [aget_addAll_ne kv.2 hne hs]
      exact hnone

/-- C7 (amended): provided the upstream response does not itself carry an
`lb-from` header and its header keys are distinct, the client response
carries `lb-from` iff tracing is enabled; when enabled it is set to exactly
the chosen upstream address (set before the status code is written, hence
effective), every upstream header with a nonempty value list is copied with
all its values, and the status and body are forwarded unchanged. -/
theorem c7_forward_headers_amended (trace : Bool) (dst : String)
    (upstream : Headers) (status : Nat) (body : String)
    (hnodup : Datastore.nodupKeys upstream)
    (hnolb : "lb-from" ∉ upstream.map Prod.fst) :
    (Datastore.aget (forwardResponse trace dst upstream status body).headers
        "lb-from" ≠ none ↔ trace = true)
    ∧ (trace = true →
        Datastore.aget (forwardResponse trace dst upstream status body).headers
          "lb-from" = some [dst])
    ∧ (∀ k vs, (k, vs) ∈ upstream → vs ≠ [] →
        Datastore.aget (forwardResponse trace dst upstream status body).headers
          k = some vs)
    ∧ (forwardResponse trace dst upstream status body).status = some status
    ∧ (forwardResponse trace dst upstream status body).body = "" ++ body := by
  have hcopy_none : Datastore.aget (copyHeaders upstream) "lb-from" = none := by
    unfold copyHeaders
    rw [aget_copyInto_not_mem _ _ _ hnolb]
    rfl
  cases trace with
  | false =>
    have hh : (forwardResponse false dst upstream status body).headers
        = copyHeaders upstream := by
      rw [forwardResponse_eq]
      rfl
    have hst : (forwardResponse false dst upstream status body).status
        = some status := by
      rw [forwardResponse_eq]
    have hbd : (forwardResponse false dst upstream status body).body
        = "" ++ body := by
      rw [forwardResponse_eq]
    refine ⟨?_, ?_, ?_, hst, hbd⟩
    · rw [hh]
      simp [hcopy_none]
    · intro h
      cases h
    · intro k vs hmem hvs
      rw [hh]
      exact aget_copyInto_mem k vs hvs upstream [] hnodup hmem rfl
  | true =>
    have hh : (forwardResponse true dst upstream status body).headers
        = Datastore.aput (copyHeaders upstream) "lb-from" [dst] := by
      rw [forwardResponse_eq]
      rfl
    have hst : (forwardResponse true dst upstream status body).status
        = some status := by rw [forwardResponse_eq]
    have hbd : (forwardResponse true dst upstream status body).body
        = "" ++ body := by rw [forwardResponse_eq]
    refine ⟨?_, fun _ => ?_, ?_, hst, hbd⟩
    · rw [hh, Datastore.aget_aput_self]
      simp
    · rw [hh]
      exact Datastore.aget_aput_self _ _ _
    · intro k vs hmem hvs
      have hkne : k ≠ "lb-from" := by
        intro he
        exact hnolb (he ▸ List.mem_map.mpr ⟨(k, vs), hmem, rfl⟩)
      rw [hh, Datastore.aget_aput_ne _ _ hkne]
      exact aget_copyInto_mem k vs hvs upstream [] hnodup hmem rfl

/-- C7 counterexample: when the upstream response itself carries an
`lb-from` header and tracing is disabled, the header-copy loop still adds
it, so the client response carries `lb-from` although tracing is off — the
claimed "if and only if" fails as stated. -/
theorem c7_counterexample_upstream_lbfrom :
    (forwardResponse false "b:8080" [("lb-from", ["evil"])] 200 "ok").headers
      = [("lb-from", ["evil"])]
    ∧ Datastore.aget
        (forwardResponse false "b:8080" [("lb-from", ["evil"])] 200 "ok").headers
        "lb-from" = some ["evil"] :=
  ⟨rfl, rfl⟩

/-- The upstream headers of spec scenario 8, plus a multi-valued header. -/
def c7Upstream : Headers := [("X-Test", ["ok"]), ("M", ["a", "b"])]

/-- Witness for C7: on a concrete upstream response without `lb-from`,
tracing on yields `lb-from = b:8080`, tracing off yields no `lb-from`, and
the multi-valued header is copied whole. -/
theorem c7_forward_headers_witness :
    Datastore.nodupKeys c7Upstream
    ∧ ("lb-from" ∉ c7Upstream.map Prod.fst)
    ∧ Datastore.aget
        (forwardResponse true "b:8080" c7Upstream 418 "body123").headers
        "lb-from" = some ["b:8080"]
    ∧ Datastore.aget
        (forwardResponse false "b:8080" c7Upstream 418 "body123").headers
        "lb-from" = none
    ∧ Datastore.aget
        (forwardResponse true "b:8080" c7Upstream 418 "body123").headers
        "M" = some ["a", "b"] := by
  have hnd : Datastore.nodupKeys c7Upstream := by
    unfold Datastore.nodupKeys
    decide
  have hnl : "lb-from" ∉ c7Upstream.map Prod.fst := by decide
  refine ⟨hnd, hnl, ?_, ?_, ?_⟩
  · exact (c7_forward_headers_amended true "b:8080" c7Upstream 418 "body123"
      hnd hnl).2.1 rfl
  · have h := (c7_forward_headers_amended false "b:8080" c7Upstream 418 "body123"
      hnd hnl).1
    by_contra hne
    exact Bool.false_ne_true (h.mp hne)
  · exact (c7_forward_headers_amended true "b:8080" c7Upstream 418 "body123"
      hnd hnl).2.2.1 "M" ["a", "b"] (by decide) (by decide)

end Balancer

namespace Datastore

/-! ### Claim C8 -/

/-- Structural invariant of engine states reached by `Put` and rollover:
the write offset tracks the log length, index keys are unique, every index
entry decodes a record carrying its key from the active log, every segment
entry decodes one from an existing segment file, all segment file ids are
below `segmentNum`, and the two maps are key-disjoint. -/
structure GoodDb (db : Db) : Prop where
  off_eq : db.outOffset = db.log.length
  idx_nodup : nodupKeys db.index
  idx_ok : ∀ k off, aget db.index k = some off →
    ∃ v n, decodeOne (db.log.drop off) = .ok ⟨k, v⟩ n
  seg_ok : ∀ k si, aget db.segments k = some si →
    ∃ bytes v n, aget db.files si.file = some bytes
      ∧ decodeOne (bytes.drop si.offset) = .ok ⟨k, v⟩ n
  fresh : ∀ id bytes, aget db.files id = some bytes → id < db.segmentNum
  disj : ∀ k, aget db.index k ≠ none → aget db.segments k = none

theorem aget_migrateIndex (idx : List (Bytes × Nat)) (segId : Nat) :
    ∀ (segs : List (Bytes × SegmentInfo)) (k : Bytes), nodupKeys idx →
    aget (migrateIndex idx segId segs) k
      = match aget idx k with
        | some off => some ⟨segId, off⟩
        | none => aget segs k := by
  induction idx with
  | nil => intro segs k _; rfl
  | cons p t ih =>
    intro segs k hnd
    have hnd0 : (p.1 :: t.map Prod.fst).Nodup := hnd
    have hph : p.1 ∉ t.map Prod.fst := (List.nodup_cons.mp hnd0).1
    have hnd' : nodupKeys t := (List.nodup_cons.mp hnd0).2
    show aget (migrateIndex t segId (aput segs p.1 ⟨segId, p.2⟩)) k = _
    rw [ih _ k hnd']
    by_cases hk : p.1 = k
    · subst hk
      have ht : aget t p.1 = none := aget_eq_none_of_not_mem hph
      have hhd : aget (p :: t) p.1 = some p.2 := by
        simp [aget]
      rw [ht, hhd, aget_aput_self]
    · have hne : k ≠ p.1 := fun he => hk he.symm
      have hcons : aget (p :: t) k = aget t k := by
        simp [aget, hk]
      rw [hcons]
      cases hat : aget t k with
      | some off => rfl
      | none =>
        simp only
        rw [aget_aput_ne _ _ hne]

theorem createNewSegment_good {db : Db} (h : GoodDb db) :
    GoodDb db.createNewSegment
    ∧ ∀ k, db.createNewSegment.Get k = db.Get k := by
  have hmig := aget_migrateIndex db.index db.segmentNum db.segments
  constructor
  · constructor
    · rfl
    · exact List.nodup_nil
    · intro k off hk
      cases hk
    · intro k si hsi
      have hs : aget db.createNewSegment.segments k
          = aget (migrateIndex db.index db.segmentNum db.segments) k := rfl
      rw [hs, hmig k h.idx_nodup] at hsi
      cases hidx : aget db.index k with
      | some off =>
        rw [hidx] at hsi
        cases hsi
        obtain ⟨v, n, hdec⟩ := h.idx_ok k off hidx
        refine ⟨db.log, v, n, ?_, hdec⟩
        show aget (aput db.files db.segmentNum db.log) db.segmentNum = some db.log
        exact aget_aput_self _ _ _
      | none =>
        rw [hidx] at hsi
        obtain ⟨bytes, v, n, hfile, hdec⟩ := h.seg_ok k si hsi
        refine ⟨bytes, v, n, ?_, hdec⟩
        have hlt : si.file < db.segmentNum := h.fresh si.file bytes hfile
        have hne : si.file ≠ db.segmentNum := Nat.ne_of_lt hlt
        show aget (aput db.files db.segmentNum db.log) si.file = some bytes
        rw [aget_aput_ne _ _ hne]
        exact hfile
    · intro id bytes hid
      show id < db.segmentNum + 1
      by_cases hideq : id = db.segmentNum
      · omega
      · have : aget (aput db.files db.segmentNum db.log) id = aget db.files id :=
          aget_aput_ne _ _ hideq
        rw [show aget db.createNewSegment.files id
            = aget (aput db.files db.segmentNum db.log) id from rfl, this] at hid
        have := h.fresh id bytes hid
        omega
    · intro k hk
      exact absurd rfl hk
  · intro k
    show (match aget (migrateIndex db.index db.segmentNum db.segments) k with
      | some si =>
        match aget (aput db.files db.segmentNum db.log) si.file with
        | some bytes => decodeValueAt bytes si.offset
        | none => none
      | none =>
        match aget ([] : List (Bytes × Nat)) k with
        | some off => decodeValueAt ([] : Bytes) off
        | none => none) = db.Get k
    rw [hmig k h.idx_nodup]
    cases hidx : aget db.index k with
    | some off =>
      have hsegnone : aget db.segments k = none := by
        apply h.disj k
        rw [hidx]
        intro hc
        cases hc
      simp only [Db.Get, hsegnone, hidx, aget_aput_self]
    | none =>
      cases hseg : aget db.segments k with
      | some si =>
        obtain ⟨bytes, v, n, hfile, _⟩ := h.seg_ok k si hseg
        have hne : si.file ≠ db.segmentNum :=
          Nat.ne_of_lt (h.fresh si.file bytes hfile)
        simp only [Db.Get, hseg, aget_aput_ne _ _ hne]
      | none =>
        simp only [Db.Get, hseg, hidx, aget]

theorem append_good {db : Db} (h : GoodDb db) (k v : Bytes) :
    GoodDb (db.append k v)
    ∧ (db.append k v).Get k = some v
    ∧ ∀ k', k' ≠ k → (db.append k v).Get k' = db.Get k' := by
  refine ⟨⟨?_, ?_, ?_, ?_, ?_, ?_⟩, ?_, ?_⟩
  · show db.outOffset + (encode ⟨k, v⟩).length = (db.log ++ encode ⟨k, v⟩).length
    rw [List.length_append, h.off_eq]
  · exact nodupKeys_aput k db.outOffset h.idx_nodup
  · intro k' off hk'
    by_cases hke : k' = k
    · subst hke
      rw [show aget (db.append k' v).index k'
          = aget (aput db.index k' db.outOffset) k' from rfl,
        aget_aput_self] at hk'
      cases hk'
      refine ⟨v, (encode ⟨k', v⟩).length, ?_⟩
      show decodeOne ((db.log ++ encode ⟨k', v⟩).drop db.outOffset) = _
      rw [h.off_eq, List.drop_left]
      exact decodeOne_encode ⟨k', v⟩
    · rw [show aget (db.append k v).index k'
          = aget (aput db.index k db.outOffset) k' from rfl,
        aget_aput_ne _ _ hke] at hk'
      obtain ⟨v', n, hdec⟩ := h.idx_ok k' off hk'
      exact ⟨v', n, decodeOne_drop_append hdec⟩
  · intro k' si hs
    by_cases hke : k' = k
    · subst hke
      rw [show aget (db.append k' v).segments k'
          = aget (adel db.segments k') k' from rfl, aget_adel_self] at hs
      cases hs
    · rw [show aget (db.append k v).segments k'
          = aget (adel db.segments k) k' from rfl, aget_adel_ne _ hke] at hs
      exact h.seg_ok k' si hs
  · exact h.fresh
  · intro k' hk'
    by_cases hke : k' = k
    · subst hke
      exact aget_adel_self _ _
    · rw [show aget (db.append k v).index k'
          = aget (aput db.index k db.outOffset) k' from rfl,
        aget_aput_ne _ _ hke] at hk'
      rw [show aget (db.append k v).segments k'
          = aget (adel db.segments k) k' from rfl, aget_adel_ne _ hke]
      exact h.disj k' hk'
  · show Db.Get (db.append k v) k = some v
    unfold Db.Get
    rw [show (db.append k v).segments = adel db.segments k from rfl,
      aget_adel_self,
      show (db.append k v).index = aput db.index k db.outOffset from rfl,
      aget_aput_self]
    show decodeValueAt (db.log ++ encode ⟨k, v⟩) db.outOffset = some v
    unfold decodeValueAt
    rw [h.off_eq, List.drop_left, decodeOne_encode]
  · intro k' hke
    unfold Db.Get
    rw [show (db.append k v).segments = adel db.segments k from rfl,
      aget_adel_ne _ hke,
      show (db.append k v).index = aput db.index k db.outOffset from rfl,
      aget_aput_ne _ _ hke]
    cases hseg : aget db.segments k' with
    | some si => rfl
    | none =>
      cases hidx : aget db.index k' with
      | some off =>
        obtain ⟨v', n, hdec⟩ := h.idx_ok k' off hidx
        have h1 : decodeValueAt db.log off = some v' := by
          unfold decodeValueAt
          rw [hdec]
        have h2 : decodeValueAt (db.log ++ encode ⟨k, v⟩) off = some v' :=
          decodeValueAt_append h1
        show decodeValueAt (db.log ++ encode ⟨k, v⟩) off = decodeValueAt db.log off
        rw [h1, h2]
      | none => rfl

theorem put_good {db : Db} (h : GoodDb db) (k v : Bytes) :
    GoodDb (db.Put k v)
    ∧ (db.Put k v).Get k = some v
    ∧ ∀ k', k' ≠ k → (db.Put k v).Get k' = db.Get k' := by
  have hsplit : db.Put k v
      = Db.append (if 0 < db.segmentSize
          ∧ db.segmentSize < db.outOffset + (encode ⟨k, v⟩).length
        then db.createNewSegment else db) k v := rfl
  rw [hsplit]
  by_cases hc : 0 < db.segmentSize
      ∧ db.segmentSize < db.outOffset + (encode ⟨k, v⟩).length
  · rw [if_pos hc]
    obtain ⟨hg, hget⟩ := createNewSegment_good h
    obtain ⟨hg', hgetk, hgetne⟩ := append_good hg k v
    exact ⟨hg', hgetk, fun k' hke => (hgetne k' hke).trans (hget k')⟩
  · rw [if_neg hc]
    exact append_good h k v

theorem openEmpty_good (segmentSize : Nat) : GoodDb (openEmpty segmentSize) := by
  refine ⟨rfl, List.nodup_nil, ?_, ?_, ?_, ?_⟩
  · intro k off hk
    cases hk
  · intro k si hs
    cases hs
  · intro id bytes hid
    cases hid
  · intro k hk
    exact absurd rfl hk

theorem lastPut_fold (k : Bytes) (t : List (Bytes × Bytes)) :
    ∀ (init : Option Bytes),
    t.foldl (fun acc p => if p.1 = k then some p.2 else acc) init
      = match t.foldl (fun acc p => if p.1 = k then some p.2 else acc) none with
        | some v => some v
        | none => init := by
  induction t with
  | nil => intro init; rfl
  | cons p s ih =>
    intro init
    show s.foldl _ (if p.1 = k then some p.2 else init) = _
    rw [ih (if p.1 = k then some p.2 else init)]
    conv_rhs =>
      rw [show List.foldl (fun acc q => if q.1 = k then some q.2 else acc) none (p :: s)
        = s.foldl (fun acc q => if q.1 = k then some q.2 else acc)
            (if p.1 = k then some p.2 else none) from rfl]
    rw [ih (if p.1 = k then some p.2 else none)]
    cases hs : s.foldl (fun acc q => if q.1 = k then some q.2 else acc) none with
    | some w => rfl
    | none =>
      by_cases hp : p.1 = k
      · rw [if_pos hp, if_pos hp]
      · rw [if_neg hp, if_neg hp]

theorem runPuts_get (ops : List (Bytes × Bytes)) : ∀ (db : Db)
    (g : Bytes → Option Bytes), GoodDb db → (∀ k, db.Get k = g k) →
    GoodDb (ops.foldl (fun d p => d.Put p.1 p.2) db)
    ∧ ∀ k, (ops.foldl (fun d p => d.Put p.1 p.2) db).Get k
        = match ops.foldl (fun acc p => if p.1 = k then some p.2 else acc) none with
          | some v => some v
          | none => g k := by
  induction ops with
  | nil =>
    intro db g hdb hget
    exact ⟨hdb, fun k => hget k⟩
  | cons p t ih =>
    intro db g hdb hget
    obtain ⟨hg1, hgetk, hgetne⟩ := put_good hdb p.1 p.2
    have hstep : ∀ k, (db.Put p.1 p.2).Get k
        = if p.1 = k then some p.2 else g k := by
      intro k
      by_cases hk : p.1 = k
      · rw [if_pos hk, ← hk]
        exact hgetk
      · rw [if_neg hk, hgetne k (fun he => hk he.symm)]
        exact hget k
    obtain ⟨hgood, hrun⟩ := ih (db.Put p.1 p.2)
      (fun k => if p.1 = k then some p.2 else g k) hg1 hstep
    refine ⟨hgood, ?_⟩
    intro k
    rw [show (p :: t).foldl (fun d q => d.Put q.1 q.2) db
      = t.foldl (fun d q => d.Put q.1 q.2) (db.Put p.1 p.2) from rfl]
    rw [hrun k]
    rw [show (p :: t).foldl (fun acc q => if q.1 = k then some q.2 else acc) none
      = t.foldl (fun acc q => if q.1 = k then some q.2 else acc)
          (if p.1 = k then some p.2 else none) from rfl]
    rw [lastPut_fold k t (if p.1 = k then some p.2 else none)]
    cases ht : t.foldl (fun acc q => if q.1 = k then some q.2 else acc) none with
    | some w => rfl
    | none =>
      by_cases hp : p.1 = k
      · rw [if_pos hp, if_pos hp]
      · rw [if_neg hp, if_neg hp]

/-- C8: for every sequence of successful Puts from a fresh engine (rollover
sealing the active log whenever the size threshold is crossed), `Get k`
returns the value of the latest `Put(k, _)` of the sequence. The
asynchronous merge spawned by rollover runs concurrently and is modelled as
a separate operation, not interleaved here. -/
theorem c8_put_get_latest (segmentSize : Nat) (ops : List (Bytes × Bytes))
    (k v : Bytes) (h : lastPut ops k = some v) :
    (runPuts segmentSize ops).Get k = some v := by
  have hmain := runPuts_get ops (openEmpty segmentSize) (fun _ => none)
    (openEmpty_good segmentSize) (fun _ => rfl)
  have hk := hmain.2 k
  rw [show runPuts segmentSize ops
    = ops.foldl (fun d p => d.Put p.1 p.2) (openEmpty segmentSize) from rfl]
  rw [hk, show ops.foldl (fun acc p => if p.1 = k then some p.2 else acc) none
    = lastPut ops k from rfl, h]

/-- Witness for C8: two Puts with segment size 4, the second forcing a
rollover that seals the first record into `0.segment`; the first key still
reads back its value. -/
theorem c8_put_get_witness :
    lastPut [([0], [1]), ([2], [3])] [0] = some [1]
    ∧ (runPuts 4 [([0], [1]), ([2], [3])]).Get [0] = some [1]
    ∧ (runPuts 4 [([0], [1]), ([2], [3])]).files ≠ [] :=
  ⟨rfl, c8_put_get_latest 4 [([0], [1]), ([2], [3])] [0] [1] rfl, by decide⟩

/-! ### Claim C10 -/

theorem disj_append {db : Db} (h : DisjDb db) (k v : Bytes) :
    DisjDb (db.append k v) := by
  intro k' hk'
  by_cases hke : k' = k
  · subst hke
    exact aget_adel_self _ _
  · rw [show aget (db.append k v).index k'
        = aget (aput db.index k db.outOffset) k' from rfl,
      aget_aput_ne _ _ hke] at hk'
    rw [show aget (db.append k v).segments k'
        = aget (adel db.segments k) k' from rfl, aget_adel_ne _ hke]
    exact h k' hk'

theorem disj_createNewSegment (db : Db) : DisjDb db.createNewSegment := by
  intro k hk
  exact absurd rfl hk

theorem disj_put {db : Db} (h : DisjDb db) (k v : Bytes) :
    DisjDb (db.Put k v) := by
  rw [show db.Put k v
    = Db.append (if 0 < db.segmentSize
        ∧ db.segmentSize < db.outOffset + (encode ⟨k, v⟩).length
      then db.createNewSegment else db) k v from rfl]
  by_cases hc : 0 < db.segmentSize
      ∧ db.segmentSize < db.outOffset + (encode ⟨k, v⟩).length
  · rw [if_pos hc]
    exact disj_append (disj_createNewSegment db) k v
  · rw [if_neg hc]
    exact disj_append h k v

theorem aget_repoint_none (offs : List (Bytes × Nat)) (mergedId : Nat) :
    ∀ (segs : List (Bytes × SegmentInfo)) (k : Bytes), aget segs k = none →
    aget (repointSegments segs offs mergedId) k = none := by
  induction offs with
  | nil => intro segs k h; exact h
  | cons ko t ih =>
    intro segs k h
    show aget (repointSegments
      (match aget segs ko.1 with
        | some _ => aput segs ko.1 ⟨mergedId, ko.2⟩
        | none => segs) t mergedId) k = none
    apply ih
    cases hko : aget segs ko.1 with
    | some si =>
      by_cases hk : k = ko.1
      · subst hk
        rw [h] at hko
        cases hko
      · simp only
        rw [aget_aput_ne _ _ hk]
        exact h
    | none =>
      simpa using h

theorem disj_merge {db : Db} (h : DisjDb db) (fail : Option MergeFail) :
    DisjDb (db.MergeSegmentsWith fail) := by
  simp only [Db.MergeSegmentsWith]
  split
  · exact h
  · split
    · exact h
    · split
      · exact h
      · split
        · exact h
        · split
          · exact h
          · intro k hk
            exact aget_repoint_none _ _ _ k (h k hk)

theorem scanSegmentGo_disj (fuel : Nat) : ∀ (bytes : Bytes) (segId off : Nat)
    (idx : List (Bytes × Nat)) (segs : List (Bytes × SegmentInfo))
    (idx' : List (Bytes × Nat)) (segs' : List (Bytes × SegmentInfo)),
    (∀ k, aget idx k ≠ none → aget segs k = none) →
    scanSegmentGo fuel bytes segId off idx segs = .ok (idx', segs') →
    (∀ k, aget idx' k ≠ none → aget segs' k = none) := by
  induction fuel with
  | zero =>
    intro bytes segId off idx segs idx' segs' hpre hrun
    rw [scanSegmentGo] at hrun
    split at hrun
    · cases hrun
      exact hpre
    · cases hrun
    · cases hrun
  | succ n ih =>
    intro bytes segId off idx segs idx' segs' hpre hrun
    rw [scanSegmentGo] at hrun
    split at hrun
    · cases hrun
      exact hpre
    · cases hrun
    · rename_i e m heq
      have hpre' : ∀ k, aget (adel idx e.key) k ≠ none →
          aget (aput segs e.key ⟨segId, off⟩) k = none := by
        intro k hk
        by_cases hke : k = e.key
        · subst hke
          rw [aget_adel_self] at hk
          exact absurd rfl hk
        · rw [aget_adel_ne _ hke] at hk
          rw [aget_aput_ne _ _ hke]
          exact hpre k hk
      exact ih _ _ _ _ _ _ _ hpre' hrun

theorem foldl_recoverStep_error (fs : List (Nat × Bytes)) :
    fs.foldl recoverStep (.error ()) = .error () := by
  induction fs with
  | nil => rfl
  | cons p t ih => exact ih

theorem foldl_recoverStep_disj (fs : List (Nat × Bytes)) :
    ∀ (idx : List (Bytes × Nat)) (segs : List (Bytes × SegmentInfo))
    (num : Nat) (idx' : List (Bytes × Nat))
    (segs' : List (Bytes × SegmentInfo)) (num' : Nat),
    (∀ k, aget idx k ≠ none → aget segs k = none) →
    fs.foldl recoverStep (.ok (idx, segs, num)) = .ok (idx', segs', num') →
    (∀ k, aget idx' k ≠ none → aget segs' k = none) := by
  induction fs with
  | nil =>
    intro idx segs num idx' segs' num' hpre hrun
    cases hrun
    exact hpre
  | cons p t ih =>
    intro idx segs num idx' segs' num' hpre hrun
    rw [show (p :: t).foldl recoverStep (.ok (idx, segs, num))
      = t.foldl recoverStep (recoverStep (.ok (idx, segs, num)) p) from rfl] at hrun
    cases hscan : scanSegment p.2 p.1 idx segs with
    | error e =>
      rw [show recoverStep (.ok (idx, segs, num)) p
        = match scanSegment p.2 p.1 idx segs with
          | .error _ => .error ()
          | .ok (idx1, segs1) =>
            .ok (idx1, segs1, if num ≤ p.1 then p.1 + 1 else num) from rfl,
        hscan] at hrun
      rw [foldl_recoverStep_error] at hrun
      cases hrun
    | ok pr =>
      obtain ⟨idx1, segs1⟩ := pr
      have hpre1 := scanSegmentGo_disj p.2.length p.2 p.1 0 idx segs idx1 segs1
        hpre hscan
      rw [show recoverStep (.ok (idx, segs, num)) p
        = match scanSegment p.2 p.1 idx segs with
          | .error _ => .error ()
          | .ok (idx1, segs1) =>
            .ok (idx1, segs1, if num ≤ p.1 then p.1 + 1 else num) from rfl,
        hscan] at hrun
      exact ih _ _ _ _ _ _ hpre1 hrun

theorem recoverDb_disj {segmentSize : Nat} {files : List (Nat × Bytes)}
    {log : Bytes} {db : Db} (h : recoverDb segmentSize files log = .ok db) :
    DisjDb db := by
  unfold recoverDb at h
  split at h
  · cases h
  · split at h
    · cases h
    · rename_i idx0 off hs acc idx segs num hf
      cases h
      intro k hk
      exact foldl_recoverStep_disj (sortSegAsc files) idx0 [] 0 idx segs num
        (fun _ _ => rfl) hf k hk

theorem disj_runOp {db : Db} (h : DisjDb db) (op : DbOp) :
    DisjDb (runOp db op) := by
  cases op with
  | put k v => exact disj_put h k v
  | merge fail => exact disj_merge h fail
  | reopen =>
    show DisjDb (match reopenDb db with | .ok db' => db' | .error _ => db)
    cases hr : reopenDb db with
    | ok db' => exact recoverDb_disj hr
    | error e => exact h

theorem disj_runOps {db : Db} (h : DisjDb db) (ops : List DbOp) :
    DisjDb (runOps db ops) := by
  induction ops generalizing db with
  | nil => exact h
  | cons op t ih => exact ih (disj_runOp h op)

/-- C10: in every engine state obtained by opening a directory and running
any sequence of Puts (with their rollovers), merge passes (successful or
failing) and Close + Open round trips, the key sets of the active-log index
and of the segment map are disjoint, so `Get`'s preference for the segment
map never faces a key present in both. -/
theorem c10_index_segments_disjoint (segmentSize : Nat)
    (files : List (Nat × Bytes)) (log : Bytes) (db0 : Db) (ops : List DbOp)
    (h : recoverDb segmentSize files log = .ok db0) :
    DisjDb (runOps db0 ops) :=
  disj_runOps (recoverDb_disj h) ops

/-- The operation sequence of the C10 witness: two Puts with a rollover,
a merge pass and a reopen. -/
def c10Ops : List DbOp := [.put [0] [1], .put [0] [2], .merge none, .reopen]

/-- Witness for C10: opening an empty directory succeeds and the invariant
holds after the concrete operation sequence. -/
theorem c10_disjoint_witness :
    recoverDb 4 [] [] = .ok (openEmpty 4)
    ∧ DisjDb (runOps (openEmpty 4) c10Ops) :=
  ⟨rfl, c10_index_segments_disjoint 4 [] [] (openEmpty 4) c10Ops rfl⟩

end Datastore
